import Mathlib

/-
Verification development for the ItiP contract-assistant repository.

Strings are modelled as `List Char`.  Python `str.strip`, `str.lower`,
substring tests (`in`), decimal rendering of integers, and the specific
regular expressions appearing in `src/utils.py` are embedded explicitly
below; each embedding is documented next to its definition.
-/

/-! ## Basic string helpers (Python semantics on ASCII text) -/

/-- Whitespace as recognised by Python `str.strip` / regex `\s` on ASCII
text: space, tab, newline, carriage return, vertical tab, form feed. -/
def pyIsSpace (c : Char) : Bool :=
  c = ' ' || c = '\t' || c = '\n' || c = '\r' || c = '\x0b' || c = '\x0c'

/-- Sentence terminators of the chunker regex character class `[.!?]`. -/
def isTerm (c : Char) : Bool :=
  c = '.' || c = '!' || c = '?'

/-- Python `str.lstrip()` on a character list. -/
def lstripWs (l : List Char) : List Char := l.dropWhile pyIsSpace

/-- Python `str.rstrip()` on a character list. -/
def rstripWs (l : List Char) : List Char := (l.reverse.dropWhile pyIsSpace).reverse

/-- Python `str.strip()` on a character list. -/
def pyStrip (l : List Char) : List Char := rstripWs (lstripWs l)

/-- Python `str.lower()` on a character list (ASCII case mapping). -/
def pyLower (l : List Char) : List Char := l.map Char.toLower

/-- Boolean test that `t` is an initial run of `s` (helper for `segB`). -/
def pfxB : List Char → List Char → Bool
  | [], _ => true
  | _ :: _, [] => false
  | a :: as, b :: bs => a = b && pfxB as bs

/-- Python substring containment `t in s` on character lists. -/
def segB (t : List Char) : List Char → Bool
  | [] => t.isEmpty
  | c :: s => pfxB t (c :: s) || segB t s

/-- Python `" ".join(l)`. -/
def spaceJoin (l : List (List Char)) : List Char := List.intercalate [' '] l

/-- Decimal digits of `n`, most significant first, by fuel-bounded
division (`fuel ≥ n` renders every digit since `n / 10 < n` for `n > 0`). -/
def natStrAux : Nat → Nat → List Char
  | 0, _ => []
  | fuel + 1, n =>
    if n = 0 then [] else natStrAux fuel (n / 10) ++ [Nat.digitChar (n % 10)]

/-- Decimal rendering of a natural number, as Python `str`/f-string rendering
of a nonnegative `int`. -/
def natStr (n : Nat) : List Char :=
  if n = 0 then ['0'] else natStrAux n n

/-- `os.path.basename` on a POSIX path: the part after the last `/`. -/
def basename (s : List Char) : List Char :=
  (s.reverse.takeWhile (fun c => c ≠ '/')).reverse

/-! ## The chunker (`src/utils.py`, `char_chunk_text`)

The chunker searches each window with
`re.search(r"[.!?]\s+[^\S\n]*$", window)`.  This pattern is anchored at the
window end by `$`.  A match therefore consists of a terminator `[.!?]`, a
nonempty whitespace run `\s+`, then `[^\S\n]*` (whitespace other than
newline, a subclass of `\s`), ending where `$` matches: at the window end,
or just before a final `'\n'` (which itself is whitespace).  Every
character strictly between the terminator and the window end is hence
whitespace, and the terminator is the character just before the maximal
trailing whitespace run.  Conversely, when the maximal trailing whitespace
run is nonempty and is preceded by a terminator, the leftmost-then-greedy
search succeeds with `\s+` consuming the whole run, so `m.end()` equals
`len(window)`.  `regexMatchEnd` below returns `some (m.end())` exactly
under that condition, and `none` when the pattern does not match. -/

/-- Result of `re.search(r"[.!?]\s+[^\S\n]*$", w)`: `some (end of match)`
when the pattern matches (the match always ends at `w.length`, see above),
`none` otherwise. -/
def regexMatchEnd (w : List Char) : Option Nat :=
  let r := w.reverse
  let tws := r.takeWhile pyIsSpace
  match r.drop tws.length with
  | c :: _ => if tws ≠ [] ∧ isTerm c then some w.length else none
  | [] => none

/-- `text[a:b]` for `0 ≤ a ≤ b` (Python slice on character lists). -/
def listSlice (t : List Char) (a b : Nat) : List Char := (t.drop a).take (b - a)

/-- The value of the loop variable `end` after one iteration's
conditional reassignment: `end = min(start + chunk_max, n)` initially,
then `end = start + m.end()` when the regex matched the window and
`len(window) >= chunk_min`. -/
def cutEnd (cmin cmax : Nat) (t : List Char) (start : Nat) : Nat :=
  let endIdx := min (start + cmax) t.length
  let window := listSlice t start endIdx
  match regexMatchEnd window with
  | some mEnd => if cmin ≤ window.length then start + mEnd else endIdx
  | none => endIdx

/-- The `while start < n` loop of `char_chunk_text`, with explicit fuel.
Each iteration computes `end` (`cutEnd`), appends `text[start:end]`
(which in the no-match branch is exactly the window `text[start:endIdx]`),
breaks when `end >= n`, and otherwise continues from
`start = max(0, end - overlap)` (truncated subtraction on `Nat`).
`none` means the fuel ran out before the loop exited; the Python loop does
not terminate in exactly those cases (see the termination theorem for
`overlap < chunk_max`). -/
def chunkLoop (t : List Char) (cmin cmax ov : Nat) : Nat → Nat → Option (List (List Char))
  | _, 0 => none
  | start, fuel + 1 =>
    if start < t.length then
      let e := cutEnd cmin cmax t start
      let chunk := listSlice t start e
      if t.length ≤ e then some [chunk]
      else (chunkLoop t cmin cmax ov (e - ov) fuel).map (chunk :: ·)
    else some []

/-- `char_chunk_text(text, chunk_min, chunk_max, overlap)` from
`src/utils.py`: strip the text, run the chunking loop from position 0,
then strip each chunk and keep the nonempty ones.  The fuel
`length + 1` is sufficient whenever `overlap < chunk_max` because each
non-final iteration advances `start` by `chunk_max - overlap ≥ 1`
(proved below); `none` is returned when the source loop diverges. -/
def char_chunk_text (t : List Char) (cmin cmax ov : Nat) : Option (List (List Char)) :=
  let s := pyStrip t
  (chunkLoop s cmin cmax ov 0 (s.length + 1)).map
    (fun cs => (cs.map pyStrip).filter (fun c => !c.isEmpty))

/-- Defaults `CHUNK_MIN = 800`, `CHUNK_MAX = 1200`, `CHUNK_OVERLAP = 200`
(`src/utils.py`), as used by `chunk_records`; the loop provably terminates
for these parameters, so the `Option` is collapsed with `getD []`. -/
def char_chunk_textD (t : List Char) : List (List Char) :=
  (char_chunk_text t 800 1200 200).getD []

/-- Instrumented variant of `chunkLoop` recording for every chunk whether
it came from the hard-cut else-branch (`true`) or from the
sentence-boundary branch where the regex matched and
`len(window) >= chunk_min` (`false`).  Identical to `chunkLoop` otherwise
(projection lemma below). -/
def chunkLoopT (t : List Char) (cmin cmax ov : Nat) :
    Nat → Nat → Option (List (List Char × Bool))
  | _, 0 => none
  | start, fuel + 1 =>
    if start < t.length then
      let endIdx := min (start + cmax) t.length
      let window := listSlice t start endIdx
      let eh : Nat × Bool :=
        match regexMatchEnd window with
        | some mEnd => if cmin ≤ window.length then (start + mEnd, false) else (endIdx, true)
        | none => (endIdx, true)
      let chunk := listSlice t start eh.1
      if t.length ≤ eh.1 then some [(chunk, eh.2)]
      else (chunkLoopT t cmin cmax ov (eh.1 - ov) fuel).map ((chunk, eh.2) :: ·)
    else some []

/-- `char_chunk_text` with hard/boundary tags carried through the final
strip-and-filter stage. -/
def char_chunk_text_tagged (t : List Char) (cmin cmax ov : Nat) :
    Option (List (List Char × Bool)) :=
  let s := pyStrip t
  (chunkLoopT s cmin cmax ov 0 (s.length + 1)).map
    (fun cs => (cs.map (fun p => (pyStrip p.1, p.2))).filter (fun p => !p.1.isEmpty))

/-! ### The chunker as the spec describes it (for the refinement claim)

Modelled from the spec: "Search backward within that window for the last
sentence terminator (`.`, `!`, `?`) followed by whitespace; if found AND
the window from the current start to that boundary is at least
`chunk_min` characters, cut there; otherwise cut at the hard `chunk_max`
boundary."  The boundary after terminator position `i` is taken to be
`i + 1` (the segment ends with the terminator). -/

/-- Last position `i` in `w` holding a sentence terminator directly
followed by a whitespace character, if any (spec-side search). -/
def lastBoundary (w : List Char) : Option Nat :=
  (List.range w.length).foldl
    (fun acc i =>
      if isTerm (w.getD i ' ') ∧ pyIsSpace (w.getD (i + 1) 'x') ∧ i + 1 < w.length
      then some i else acc)
    none

/-- Spec-side chunking loop: cut at `i + 1` after the last terminator
`i` followed by whitespace when that segment is at least `cmin` long,
else hard-cut at the window end. -/
def chunkLoopSpec (t : List Char) (cmin cmax ov : Nat) : Nat → Nat → Option (List (List Char))
  | _, 0 => none
  | start, fuel + 1 =>
    if start < t.length then
      let endIdx := min (start + cmax) t.length
      let window := listSlice t start endIdx
      let e : Nat :=
        match lastBoundary window with
        | some i => if cmin ≤ i + 1 then start + (i + 1) else endIdx
        | none => endIdx
      let chunk := listSlice t start e
      if t.length ≤ e then some [chunk]
      else (chunkLoopSpec t cmin cmax ov (e - ov) fuel).map (chunk :: ·)
    else some []

/-- The whole chunker as described by the spec sentence of claim C3. -/
def char_chunk_text_spec (t : List Char) (cmin cmax ov : Nat) : Option (List (List Char)) :=
  let s := pyStrip t
  (chunkLoopSpec s cmin cmax ov 0 (s.length + 1)).map
    (fun cs => (cs.map pyStrip).filter (fun c => !c.isEmpty))

/-- Chunking loop with no sentence-boundary logic at all: every cut is the
hard cut at `min(start + chunk_max, n)`. -/
def chunkLoopHard (t : List Char) (cmax ov : Nat) : Nat → Nat → Option (List (List Char))
  | _, 0 => none
  | start, fuel + 1 =>
    if start < t.length then
      let endIdx := min (start + cmax) t.length
      let chunk := listSlice t start endIdx
      if t.length ≤ endIdx then some [chunk]
      else (chunkLoopHard t cmax ov (endIdx - ov) fuel).map (chunk :: ·)
    else some []

/-- Pure hard-cut chunker (same strip/filter pipeline). -/
def char_chunk_text_hard (t : List Char) (cmax ov : Nat) : Option (List (List Char)) :=
  let s := pyStrip t
  (chunkLoopHard s cmax ov 0 (s.length + 1)).map
    (fun cs => (cs.map pyStrip).filter (fun c => !c.isEmpty))

/-! ## Metadata and citations (`src/utils.py`) -/

/-- A metadata dictionary restricted to the keys the pipeline reads:
`source`, `page`, `chunk_id`, `title`; an absent key is `none`. -/
structure MetaMap where
  source : Option (List Char)
  page : Option Nat
  chunk_id : Option (List Char)
  title : Option (List Char)
deriving DecidableEq, Repr

/-- `build_chunk_metadata(source, page, chunk_id)`: a dict with
`source = os.path.basename(source)`, `chunk_id = f"chunk_{chunk_id}"`, and
`page` only when it is not `None` (fields: source, page, chunk id, title). -/
def build_chunk_metadata (source : List Char) (page : Option Nat) (chunk_id : Nat) :
    MetaMap :=
  ⟨some (basename source), page, some ("chunk_".data ++ natStr chunk_id), none⟩

/-- `format_citation(meta)`: `"[{source} p.{page} {chunk_id}]"` when a page
is present, else `"[{source} {chunk_id}]"`, with defaults `"unknown"` and
`"chunk_?"` for absent keys. -/
def format_citation (m : MetaMap) : List Char :=
  let source := m.source.getD "unknown".data
  let chunk_id := m.chunk_id.getD "chunk_?".data
  match m.page with
  | some p => "[".data ++ source ++ " p.".data ++ natStr p ++ " ".data ++ chunk_id ++ "]".data
  | none => "[".data ++ source ++ " ".data ++ chunk_id ++ "]".data

/-- The `for m in metadatas` loop of `join_citations`, with accumulator
`uniq` and the membership view of the `seen` set. -/
def joinLoop : List MetaMap → List (List Char) → List (List Char) → List (List Char)
  | [], uniq, _ => uniq
  | m :: ms, uniq, seen =>
    let c := format_citation m
    if c ∈ seen then joinLoop ms uniq seen
    else joinLoop ms (uniq ++ [c]) (c :: seen)

/-- `join_citations(metadatas)` from `src/utils.py`. -/
def join_citations (ms : List MetaMap) : List Char :=
  spaceJoin (joinLoop ms [] [])

/-- Modelled from the spec: deduplication "by exact string equality,
first-occurrence order preserved" (the reference deduper the code's
seen-set loop is compared against). -/
def dedupFirst : List (List Char) → List (List Char)
  | [] => []
  | c :: l => c :: dedupFirst (l.filter (fun d => d ≠ c))
termination_by l => l.length
decreasing_by exact Nat.lt_succ_of_le (List.length_filter_le _ _)

/-! ## Ingestion (`src/ingestion.py`)

`parse_file` performs file I/O; the claims about ingestion concern what
happens from the parsed records on, so `ingest` is modelled over the list
of per-file parsed-record lists that `parse_file` returns for each path. -/

/-- A parsed record: `{"text": ..., "metadata": {...}}`. -/
structure Record where
  text : List Char
  metadata : MetaMap
deriving DecidableEq, Repr

/-- A chunk with attached metadata, as built by `chunk_records`. -/
structure ChunkRec where
  text : List Char
  metadata : MetaMap
deriving DecidableEq, Repr

/-- The metadata attached to one chunk: `meta = base_meta.copy()` then
`meta.update(build_chunk_metadata(meta.get("source", "unknown"),
meta.get("page"), cid))`.  `source` and `chunk_id` are overwritten;
`page` is re-inserted with its own base value (or left absent); `title`
survives the copy untouched. -/
def updatedMeta (base : MetaMap) (cid : Nat) : MetaMap :=
  ⟨some (basename (base.source.getD "unknown".data)), base.page,
    some ("chunk_".data ++ natStr cid), base.title⟩

/-- The inner `for ch in char_chunk_text(text)` loop: one chunk per
produced piece, with the counter `cid` incremented after each chunk. -/
def perRec (base : MetaMap) : List (List Char) → Nat → List ChunkRec
  | [], _ => []
  | ch :: chs, cid => ⟨ch, updatedMeta base cid⟩ :: perRec base chs (cid + 1)

/-- The `for rec in records` loop of `chunk_records`, threading `cid`. -/
def chunkRecLoop : List Record → Nat → List ChunkRec
  | [], _ => []
  | r :: rs, cid =>
    let cs := char_chunk_textD r.text
    perRec r.metadata cs cid ++ chunkRecLoop rs (cid + cs.length)

/-- `chunk_records(records)` from `src/ingestion.py`: the counter starts
at `cid = 1` on every call. -/
def chunk_records (rs : List Record) : List ChunkRec := chunkRecLoop rs 1

/-- `ingest(paths)` from `src/ingestion.py`, over the per-file record
lists produced by `parse_file`: `all_chunks.extend(chunk_records(records))`
for each file in order. -/
def ingest_chunks (files : List (List Record)) : List ChunkRec :=
  (files.map chunk_records).flatten

/-- The `chunk_id` strings of a chunk list, in order. -/
def chunkIds (cs : List ChunkRec) : List (Option (List Char)) :=
  cs.map (fun c => c.metadata.chunk_id)

/-! ## Summary pipeline grounding (`src/rag_pipeline.py`) -/

/-- A retrieved document: `page_content` plus `metadata` (which may be
`None` in Python; `_citations_from_docs` does `d.metadata or {}`). -/
structure DocRec where
  page_content : List Char
  metadata : Option MetaMap
deriving DecidableEq, Repr

/-- `_format_docs(docs)`: `"\n\n".join(page contents)`. -/
def formatDocs (docs : List DocRec) : List Char :=
  List.intercalate "\n\n".data (docs.map (fun d => d.page_content))

/-- The citation-formatting body inlined in `_citations_from_docs`
(same formatting as `format_citation`, with `m = d.metadata or {}`). -/
def citeOfDoc (d : DocRec) : List Char :=
  format_citation (d.metadata.getD ⟨none, none, none, none⟩)

/-- The dedup loop of `_citations_from_docs`. -/
def citeLoop : List DocRec → List (List Char) → List (List Char) → List (List Char)
  | [], uniq, _ => uniq
  | d :: ds, uniq, seen =>
    let c := citeOfDoc d
    if c ∈ seen then citeLoop ds uniq seen
    else citeLoop ds (uniq ++ [c]) (c :: seen)

/-- `_citations_from_docs(docs)` from `src/rag_pipeline.py`. -/
def citations_from_docs (docs : List DocRec) : List Char :=
  spaceJoin (citeLoop docs [] [])

/-- The dict flowing into `grounded_or_idk`: keys `context`, `citations`
and (only after forcing) `question`. -/
structure SumPayload where
  context : List Char
  citations : List Char
  question : Option (List Char)
deriving DecidableEq, Repr

/-- `grounded_or_idk(payload)` from `src/rag_pipeline.py`: when the
stripped context or the stripped citations are empty (Python falsy),
force empty context and citations and the generic instruction. -/
def grounded_or_idk (p : SumPayload) : SumPayload :=
  if pyStrip p.context = [] ∨ pyStrip p.citations = [] then
    ⟨[], [], some "Summarize the documents.".data⟩
  else p

/-- The map stage before `grounded_or_idk` in `build_summary_chain`:
`_format_docs(x["docs"]) if x.get("docs") else ""` and likewise for
citations (an empty doc list is falsy); no `question` key yet. -/
def summaryStage (docs : List DocRec) : SumPayload :=
  ⟨if docs = [] then [] else formatDocs docs,
    if docs = [] then [] else citations_from_docs docs, none⟩

/-- Retrieval output to prompt-input composition of the summary chain. -/
def summaryPipeline (docs : List DocRec) : SumPayload :=
  grounded_or_idk (summaryStage docs)

/-- The rendered human message of the summary prompt:
`"Context:\n{context}\n\nCitations: {citations}"`. -/
def renderSummaryHuman (p : SumPayload) : List Char :=
  "Context:\n".data ++ p.context ++ "\n\nCitations: ".data ++ p.citations

/-! ## Topical guard (`src/utils.py`, `guard_unrelated`)

The blocked patterns use `\b` word boundaries (`\w` is `[a-zA-Z0-9_]` on
this ASCII text), alternation with an optional trailing `s`
(`movies?`, `songs?`), and `.*` which matches any characters except
newline.  Each is embedded as a decidable search over match positions. -/

/-- Regex `\w` on ASCII text. -/
def isWordChar (c : Char) : Bool := c.isAlphanum || c = '_'

/-- Word `w` occurs in `q` at position `i` with `\b` on both sides. -/
def matchesWordAt (q w : List Char) (i : Nat) : Bool :=
  ((q.drop i).take w.length = w : Bool)
    && (i = 0 || !isWordChar (q.getD (i - 1) ' '))
    && (i + w.length = q.length || !isWordChar (q.getD (i + w.length) ' '))

/-- `re.search(r"\b" + w + r"\b", q)` succeeds for a literal word `w`. -/
def containsWord (q w : List Char) : Bool :=
  (List.range (q.length + 1)).any (matchesWordAt q w)

/-- A `\b(w1|w2|...)\b` alternation of literal words (with `movies?`
expanded to its two words). -/
def altWords (q : List Char) (ws : List (List Char)) : Bool :=
  ws.any (containsWord q)

/-- `re.search(r"\bw1.*w2\b", q)`: `\b` before `w1`, any non-newline gap,
`w2` followed by `\b`. -/
def dotStarPat (q w1 w2 : List Char) : Bool :=
  (List.range (q.length + 1)).any fun i =>
    ((q.drop i).take w1.length = w1 : Bool)
      && (i = 0 || !isWordChar (q.getD (i - 1) ' '))
      && ((List.range (q.length + 1)).any fun j =>
        (i + w1.length ≤ j : Bool)
          && ((q.drop j).take w2.length = w2 : Bool)
          && (j + w2.length = q.length || !isWordChar (q.getD (j + w2.length) ' '))
          && ((q.drop (i + w1.length)).take (j - (i + w1.length))).all (fun c => c ≠ '\n'))

/-- The greeting allow-list of `guard_unrelated`. -/
def greetingsList : List (List Char) :=
  ["hi".data, "hello".data, "hey".data, "good morning".data, "good afternoon".data,
    "good evening".data, "how are you".data, "thanks".data, "thank you".data]

/-- The assistant-meta allow-list of `guard_unrelated`. -/
def metaList : List (List Char) :=
  ["what can you do".data, "what are you".data, "who are you".data, "help".data]

/-- `guard_unrelated(question)` from `src/utils.py`: lower-case and strip,
allow greetings and meta questions, otherwise block the unrelated-topic
patterns. -/
def guard_unrelated (question : List Char) : Bool :=
  let q := pyStrip (pyLower question)
  if greetingsList.any (fun g => segB g q) then false
  else if metaList.any (fun g => segB g q) then false
  else
    altWords q ["weather".data, "news".data, "sports".data, "movie".data, "movies".data,
        "music".data, "song".data, "songs".data]
      || altWords q ["recipe".data, "cooking".data, "food".data]
      || altWords q ["travel".data, "vacation".data, "hotel".data]
      || dotStarPat q "write".data "story".data
      || dotStarPat q "play".data "game".data
      || dotStarPat q "tell".data "joke".data

/-- The allow-list of the topical guard (greetings then meta questions). -/
def allowTokens : List (List Char) := greetingsList ++ metaList

/-- Structural facts about one allow-list token: nonempty, does not start
or end with whitespace, and is fixed by lower-casing. -/
def tokChk (t : List Char) : Bool :=
  !t.isEmpty && !pyIsSpace (t.headD 'x') && !pyIsSpace (t.reverse.headD 'x')
    && (t.map Char.toLower = t : Bool)

/-- The total number of chunks a record list produces. -/
def totChunks (rs : List Record) : Nat :=
  (rs.map (fun r => (char_chunk_textD r.text).length)).sum

/-! ## Answer-path control flow (`src/app.py`) -/

/-- What one `stream_answer` call does with a question, abstracted from
the streamed history bookkeeping: which terminal response class it
produces. -/
inductive Outcome where
  | greeting
  | howAreYou
  | metaInfo
  | thanks
  | offTopic
  | buildError
  | noIndexRefusal
  | modelAnswer
deriving DecidableEq, Repr

/-- The global `qa_chain` / `summary_chain` handles of `src/app.py`. -/
structure AppChains (α : Type) where
  qa : Option α
  sum : Option α

/-- `ensure_chains()` from `src/app.py`: build whichever chain is `None`;
a `RuntimeError` from a builder propagates.  `buildQA` and `buildSum`
stand for `build_qa_chain()` / `build_summary_chain()`, which either
raise (`Except.error`) or return a chain. -/
def ensure_chains {α E : Type} (buildQA buildSum : Except E α) (st : AppChains α) :
    Except E (AppChains α) :=
  match st.qa with
  | none =>
    match buildQA with
    | .error e => .error e
    | .ok c =>
      match st.sum with
      | none =>
        match buildSum with
        | .error e => .error e
        | .ok d => .ok ⟨some c, some d⟩
      | some d => .ok ⟨some c, some d⟩
  | some c =>
    match st.sum with
    | none =>
      match buildSum with
      | .error e => .error e
      | .ok d => .ok ⟨some c, some d⟩
    | some d => .ok ⟨some c, some d⟩

/-- The greeting list hard-coded in `stream_answer` (line 82). -/
def appGreetings : List (List Char) :=
  ["hi".data, "hello".data, "hey".data, "good morning".data, "good afternoon".data,
    "good evening".data]

/-- The decision structure of `stream_answer(question)` from `src/app.py`:
canned branches, the topical guard, `ensure_chains` in a `try`, the
`if qa_chain is None` refusal, and finally streaming from the QA chain. -/
def stream_answer {α E : Type} (buildQA buildSum : Except E α) (st : AppChains α)
    (question : List Char) : Outcome × AppChains α :=
  let q := pyStrip (pyLower question)
  if appGreetings.any (fun g => segB g q) then (.greeting, st)
  else if segB "how are you".data q then (.howAreYou, st)
  else if (["what can you do".data, "what are you".data, "who are you".data,
      "help".data] : List (List Char)).any (fun g => segB g q) then (.metaInfo, st)
  else if (["thanks".data, "thank you".data] : List (List Char)).any
      (fun g => segB g q) then (.thanks, st)
  else if guard_unrelated question then (.offTopic, st)
  else
    match ensure_chains buildQA buildSum st with
    | .error _ => (.buildError, st)
    | .ok st' =>
      match st'.qa with
      | none => (.noIndexRefusal, st')
      | some _ => (.modelAnswer, st')

/-! ## Chunker lemmas -/

theorem listSlice_length (t : List Char) (a b : Nat) :
    (listSlice t a b).length = min (b - a) (t.length - a) := by
  simp [listSlice]

theorem regexMatchEnd_some {w : List Char} {k : Nat} (h : regexMatchEnd w = some k) :
    k = w.length := by
  simp only [regexMatchEnd] at h
  split at h
  · split at h
    · exact (Option.some.inj h).symm
    · exact absurd h (by simp)
  · exact absurd h (by simp)

/-- The conditional reassignment of `end` never moves it: a regex match
always ends at the window end, so `end = min(start + chunk_max, n)`
whatever branch is taken. -/
theorem cutEnd_eq (cmin cmax : Nat) (t : List Char) (start : Nat)
    (h : start ≤ t.length) :
    cutEnd cmin cmax t start = min (start + cmax) t.length := by
  simp only [cutEnd]
  split
  · rename_i mEnd hm
    have hlen := regexMatchEnd_some hm
    rw [listSlice_length] at hlen
    split
    · omega
    · rfl
  · rfl

/-- The source chunking loop coincides with the pure hard-cut loop. -/
theorem chunkLoop_eq_hard (t : List Char) (cmin cmax ov : Nat) :
    ∀ fuel start, chunkLoop t cmin cmax ov start fuel = chunkLoopHard t cmax ov start fuel := by
  intro fuel
  induction fuel with
  | zero => intro start; rfl
  | succ fuel ih =>
    intro start
    simp only [chunkLoop, chunkLoopHard]
    by_cases hlt : start < t.length
    · rw [if_pos hlt, if_pos hlt, cutEnd_eq cmin cmax t start hlt.le, ih]
    · rw [if_neg hlt, if_neg hlt]

theorem chunkLoopHard_isSome (t : List Char) (cmax ov : Nat) (hov : ov < cmax) :
    ∀ fuel start, t.length - start < fuel →
      (chunkLoopHard t cmax ov start fuel).isSome = true := by
  intro fuel
  induction fuel with
  | zero => intro start h; exact absurd h (Nat.not_lt_zero _)
  | succ fuel ih =>
    intro start h
    simp only [chunkLoopHard]
    by_cases hlt : start < t.length
    · rw [if_pos hlt]
      by_cases hend : t.length ≤ min (start + cmax) t.length
      · rw [if_pos hend]; rfl
      · rw [if_neg hend]
        have hrec := ih (min (start + cmax) t.length - ov) (by omega)
        rcases hx : chunkLoopHard t cmax ov (min (start + cmax) t.length - ov) fuel with _ | raw
        · rw [hx] at hrec; exact absurd hrec (by simp)
        · simp [hx]
    · rw [if_neg hlt]; rfl

theorem chunkLoopHard_mem (t : List Char) (cmax ov : Nat) :
    ∀ fuel start raw, chunkLoopHard t cmax ov start fuel = some raw →
      ∀ c ∈ raw, c.length ≤ cmax := by
  intro fuel
  induction fuel with
  | zero => intro start raw h; cases h
  | succ fuel ih =>
    intro start raw h c hc
    simp only [chunkLoopHard] at h
    by_cases hlt : start < t.length
    · rw [if_pos hlt] at h
      by_cases hend : t.length ≤ min (start + cmax) t.length
      · rw [if_pos hend] at h
        rcases (Option.some.inj h).symm with rfl
        rcases List.mem_singleton.mp hc with rfl
        rw [listSlice_length]; omega
      · rw [if_neg hend] at h
        rcases Option.map_eq_some'.mp h with ⟨raw', hraw', rfl⟩
        rcases List.mem_cons.mp hc with rfl | hc'
        · rw [listSlice_length]; omega
        · exact ih _ raw' hraw' c hc'
    · rw [if_neg hlt] at h
      rcases (Option.some.inj h).symm with rfl
      cases hc

theorem chunkLoopHard_ne_nil (t : List Char) (cmax ov : Nat) :
    ∀ fuel start raw, chunkLoopHard t cmax ov start fuel = some raw →
      start < t.length → raw ≠ [] := by
  intro fuel start raw h hlt
  cases fuel with
  | zero => cases h
  | succ fuel =>
    simp only [chunkLoopHard] at h
    rw [if_pos hlt] at h
    by_cases hend : t.length ≤ min (start + cmax) t.length
    · rw [if_pos hend] at h
      rcases (Option.some.inj h).symm with rfl
      simp
    · rw [if_neg hend] at h
      rcases Option.map_eq_some'.mp h with ⟨raw', _, rfl⟩
      simp

/-- Every chunk the loop appends, except the final one, is a full window
of exactly `chunk_max` characters (before the final per-chunk strip). -/
theorem chunkLoopHard_dropLast (t : List Char) (cmax ov : Nat) :
    ∀ fuel start raw, chunkLoopHard t cmax ov start fuel = some raw →
      ∀ c ∈ raw.dropLast, c.length = cmax := by
  intro fuel
  induction fuel with
  | zero => intro start raw h; cases h
  | succ fuel ih =>
    intro start raw h c hc
    simp only [chunkLoopHard] at h
    by_cases hlt : start < t.length
    · rw [if_pos hlt] at h
      by_cases hend : t.length ≤ min (start + cmax) t.length
      · rw [if_pos hend] at h
        rcases (Option.some.inj h).symm with rfl
        cases hc
      · rw [if_neg hend] at h
        rcases Option.map_eq_some'.mp h with ⟨raw', hraw', rfl⟩
        have hne : raw' ≠ [] :=
          chunkLoopHard_ne_nil t cmax ov fuel _ raw' hraw' (by omega)
        rw [List.dropLast_cons_of_ne_nil hne] at hc
        rcases List.mem_cons.mp hc with rfl | hc'
        · rw [listSlice_length]; omega
        · exact ih _ raw' hraw' c hc'
    · rw [if_neg hlt] at h
      rcases (Option.some.inj h).symm with rfl
      cases hc

theorem dropWhile_length_le {α : Type} (p : α → Bool) (l : List α) :
    (l.dropWhile p).length ≤ l.length := by
  induction l with
  | nil => simp
  | cons a l ih =>
    by_cases hp : p a
    · rw [List.dropWhile_cons, if_pos hp]; exact le_trans ih (by simp)
    · rw [List.dropWhile_cons, if_neg hp]

theorem pyStrip_length_le (l : List Char) : (pyStrip l).length ≤ l.length := by
  unfold pyStrip rstripWs lstripWs
  calc ((l.dropWhile pyIsSpace).reverse.dropWhile pyIsSpace).reverse.length
      = ((l.dropWhile pyIsSpace).reverse.dropWhile pyIsSpace).length := by simp
    _ ≤ (l.dropWhile pyIsSpace).reverse.length := dropWhile_length_le _ _
    _ = (l.dropWhile pyIsSpace).length := by simp
    _ ≤ l.length := dropWhile_length_le _ _

theorem dropWhile_dropWhile {α : Type} (p : α → Bool) (l : List α) :
    (l.dropWhile p).dropWhile p = l.dropWhile p := by
  induction l with
  | nil => rfl
  | cons a l ih =>
    by_cases hp : p a
    · rw [List.dropWhile_cons, if_pos hp, ih]
    · rw [List.dropWhile_cons, if_neg hp, List.dropWhile_cons, if_neg hp]

theorem dropWhile_head_false {α : Type} (p : α → Bool) :
    ∀ (l : List α) (a : α) (m : List α), l.dropWhile p = a :: m → p a = false := by
  intro l
  induction l with
  | nil => intro a m h; cases h
  | cons b l ih =>
    intro a m h
    by_cases hp : p b
    · rw [List.dropWhile_cons, if_pos hp] at h; exact ih a m h
    · rw [List.dropWhile_cons, if_neg hp] at h
      rcases List.cons.inj h with ⟨rfl, _⟩
      exact Bool.eq_false_iff.mpr hp

theorem rstrip_cons (a : Char) (m : List Char) (ha : pyIsSpace a = false) :
    rstripWs (a :: m) = a :: rstripWs m := by
  unfold rstripWs
  rw [List.reverse_cons, List.dropWhile_append]
  by_cases he : (m.reverse.dropWhile pyIsSpace).isEmpty
  · rw [if_pos he]
    rw [List.isEmpty_iff] at he
    rw [he]
    simp [List.dropWhile_cons, ha]
  · rw [if_neg he]
    simp

theorem pyStrip_idem (l : List Char) : pyStrip (pyStrip l) = pyStrip l := by
  unfold pyStrip
  have h1 : lstripWs (rstripWs (lstripWs l)) = rstripWs (lstripWs l) := by
    rcases hcase : lstripWs l with _ | ⟨a, m⟩
    · rfl
    · have ha : pyIsSpace a = false := dropWhile_head_false pyIsSpace l a m hcase
      rw [rstrip_cons a m ha]
      unfold lstripWs
      rw [List.dropWhile_cons, if_neg (by simp [ha])]
  rw [h1]
  unfold rstripWs
  rw [List.reverse_reverse, dropWhile_dropWhile]

/-- Claim C3 (amended): the boundary search of `char_chunk_text` is
anchored to the window end and, when it matches, returns the window
length, so the cut position is always the hard `chunk_max` boundary: the
chunker is extensionally the pure hard-cut chunker. -/
theorem claim_C3_amended (t : List Char) (cmin cmax ov : Nat) :
    char_chunk_text t cmin cmax ov = char_chunk_text_hard t cmax ov := by
  simp only [char_chunk_text, char_chunk_text_hard]
  rw [chunkLoop_eq_hard]

/-- Claim C3 (counterexample): on `"ab. cdefghij"` with `chunk_min = 3`,
`chunk_max = 10`, `overlap = 2`, the code cuts the first chunk at the hard
boundary (`"ab. cdefgh"`), while the algorithm the claim describes —
last terminator-followed-by-whitespace anywhere in the window, cut there
when the segment is at least `chunk_min` — cuts it at `"ab."`; the two
output lists differ. -/
theorem claim_C3_counterexample :
    char_chunk_text "ab. cdefghij".data 3 10 2 =
      some ["ab. cdefgh".data, "ghij".data] ∧
    char_chunk_text_spec "ab. cdefghij".data 3 10 2 =
      some ["ab.".data, "b. cdefghi".data, "hij".data] ∧
    decide ((["ab. cdefgh".data, "ghij".data] : List (List Char)) =
      ["ab.".data, "b. cdefghi".data, "hij".data]) = false := by
  refine ⟨by decide, by decide, by decide⟩

/-- Claim C9: `char_chunk_text` terminates (the loop exits before the fuel
`length + 1` is exhausted) whenever `overlap < chunk_max`. -/
theorem claim_C9 (t : List Char) (cmin cmax ov : Nat) (hov : ov < cmax) :
    (char_chunk_text t cmin cmax ov).isSome = true := by
  simp only [char_chunk_text]
  rw [chunkLoop_eq_hard]
  have h := chunkLoopHard_isSome (pyStrip t) cmax ov hov ((pyStrip t).length + 1) 0 (by omega)
  rcases hx : chunkLoopHard (pyStrip t) cmax ov 0 ((pyStrip t).length + 1) with _ | raw
  · rw [hx] at h; exact absurd h (by simp)
  · simp [hx]

/-- Claim C9 witness: termination at the default parameters on a concrete
text. -/
theorem claim_C9_witness :
    (char_chunk_text "some text.".data 800 1200 200).isSome = true :=
  claim_C9 "some text.".data 800 1200 200 (by decide)

/-- Claim C4 (amended): every produced chunk is at most `chunk_max` long,
and before the final per-chunk whitespace strip every chunk except the
last is exactly `chunk_max` long (hence at least `chunk_min` whenever
`chunk_min ≤ chunk_max`); after stripping, a non-final produced chunk can
be shorter than `chunk_min` even when the sentence-boundary branch (not a
hard cut) produced it. -/
theorem claim_C4_amended (t : List Char) (cmin cmax ov : Nat) :
    (∀ out, char_chunk_text t cmin cmax ov = some out → ∀ c ∈ out, c.length ≤ cmax) ∧
    (∀ raw, chunkLoop (pyStrip t) cmin cmax ov 0 ((pyStrip t).length + 1) = some raw →
      ∀ c ∈ raw.dropLast, c.length = cmax) := by
  constructor
  · intro out hout c hc
    simp only [char_chunk_text] at hout
    rcases Option.map_eq_some'.mp hout with ⟨raw, hraw, rfl⟩
    rw [chunkLoop_eq_hard] at hraw
    rcases List.mem_filter.mp hc with ⟨hc', _⟩
    rcases List.mem_map.mp hc' with ⟨c0, hc0, rfl⟩
    exact le_trans (pyStrip_length_le c0) (chunkLoopHard_mem _ cmax ov _ _ raw hraw c0 hc0)
  · intro raw hraw
    rw [chunkLoop_eq_hard] at hraw
    exact chunkLoopHard_dropLast _ cmax ov _ _ raw hraw

/-- Claim C4 witness: the bound at the default parameters on a concrete
text. -/
theorem claim_C4_witness : ("short.".data).length ≤ 1200 :=
  (claim_C4_amended "short.".data 800 1200 200).1 ["short.".data] (by decide)
    "short.".data (by decide)

/-- Claim C4 (counterexample): at `chunk_min = 2`, `chunk_max = 4`,
`overlap = 1`, the text `".   ab"` produces a first chunk `"."` that is
not the last chunk, has length `1 < chunk_min`, and came from the
sentence-boundary branch (tag `false`), not from a hard cut — refuting
"length ≥ chunk_min OR hard cut" for non-final produced chunks. -/
theorem claim_C4_counterexample :
    char_chunk_text_tagged ".   ab".data 2 4 1 =
      some [(".".data, false), ("ab".data, true)] ∧
    char_chunk_text ".   ab".data 2 4 1 = some [".".data, "ab".data] ∧
    (".".data).length < 2 := by
  refine ⟨by decide, by decide, by decide⟩

/-- Claim C8 (counterexample): `" "` is a non-empty text of length
`1 < chunk_min = 800`, yet the chunker yields zero chunks, not one: the
leading strip empties it. -/
theorem claim_C8_counterexample :
    (" ".data).length = 1 ∧ (" ".data).length < 800 ∧
    char_chunk_text " ".data 800 1200 200 = some [] := by
  refine ⟨by decide, by decide, by decide⟩

/-- Claim C8 (amended): every text whose stripped form is non-empty and
shorter than `chunk_min`, with `chunk_min ≤ chunk_max`, yields exactly one
chunk: the stripped text. -/
theorem claim_C8_amended (t : List Char) (cmin cmax ov : Nat)
    (h1 : pyStrip t ≠ []) (h2 : (pyStrip t).length < cmin) (h3 : cmin ≤ cmax) :
    char_chunk_text t cmin cmax ov = some [pyStrip t] := by
  simp only [char_chunk_text]
  rw [chunkLoop_eq_hard]
  have hn : 0 < (pyStrip t).length := List.length_pos.mpr h1
  have hmin : min (0 + cmax) (pyStrip t).length = (pyStrip t).length := by omega
  simp only [chunkLoopHard]
  rw [if_pos hn, hmin, if_pos (le_refl _)]
  have hslice : listSlice (pyStrip t) 0 (pyStrip t).length = pyStrip t := by
    simp [listSlice]
  rw [hslice]
  simp only [Option.map_some', List.map_cons, List.map_nil, pyStrip_idem]
  rw [List.filter_cons]
  simp [List.isEmpty_iff, h1]

/-- Claim C8 witness: a concrete short text at the default parameters. -/
theorem claim_C8_witness :
    char_chunk_text "ab".data 800 1200 200 = some [pyStrip "ab".data] :=
  claim_C8_amended "ab".data 800 1200 200 (by decide) (by decide) (by decide)

/-! ## Topical-guard lemmas -/

theorem pfxB_iff (t : List Char) : ∀ s, pfxB t s = true ↔ ∃ v, s = t ++ v := by
  induction t with
  | nil =>
    intro s
    simp only [pfxB, List.nil_append]
    exact ⟨fun _ => ⟨s, rfl⟩, fun _ => trivial⟩
  | cons a as ih =>
    intro s
    cases s with
    | nil =>
      simp only [pfxB]
      constructor
      · intro h; cases h
      · rintro ⟨v, hv⟩; cases hv
    | cons b bs =>
      simp only [pfxB, Bool.and_eq_true, decide_eq_true_eq, ih bs, List.cons_append]
      constructor
      · rintro ⟨rfl, v, rfl⟩; exact ⟨v, rfl⟩
      · rintro ⟨v, hv⟩
        rcases List.cons.inj hv with ⟨rfl, rfl⟩
        exact ⟨rfl, v, rfl⟩

theorem segB_iff (t : List Char) : ∀ s, segB t s = true ↔ ∃ u v, s = u ++ t ++ v := by
  intro s
  induction s with
  | nil =>
    simp only [segB, List.isEmpty_iff]
    constructor
    · rintro rfl; exact ⟨[], [], rfl⟩
    · rintro ⟨u, v, hv⟩
      rcases List.append_eq_nil.mp hv.symm with ⟨h1, h2⟩
      rcases List.append_eq_nil.mp h1 with ⟨_, rfl⟩
      rfl
  | cons c s ih =>
    simp only [segB, Bool.or_eq_true, pfxB_iff, ih]
    constructor
    · rintro (⟨v, hv⟩ | ⟨u, v, rfl⟩)
      · exact ⟨[], v, by simp [hv]⟩
      · exact ⟨c :: u, v, rfl⟩
    · rintro ⟨u, v, hv⟩
      cases u with
      | nil => exact Or.inl ⟨v, by simpa using hv⟩
      | cons x u =>
        rcases List.cons.inj hv with ⟨rfl, rfl⟩
        exact Or.inr ⟨u, v, rfl⟩

theorem lstrip_seg (a : Char) (tl : List Char) (ha : pyIsSpace a = false) :
    ∀ u v, ∃ u', lstripWs (u ++ (a :: tl) ++ v) = u' ++ (a :: tl) ++ v := by
  intro u
  induction u with
  | nil =>
    intro v
    refine ⟨[], ?_⟩
    simp only [List.nil_append, List.cons_append, lstripWs, List.dropWhile_cons, ha]
    simp
  | cons x u ih =>
    intro v
    by_cases hx : pyIsSpace x
    · rcases ih v with ⟨u', hu'⟩
      refine ⟨u', ?_⟩
      simp only [List.cons_append, lstripWs, List.dropWhile_cons, hx]
      simpa [lstripWs] using hu'
    · refine ⟨x :: u, ?_⟩
      simp only [List.cons_append, lstripWs, List.dropWhile_cons, hx]
      simp

theorem rstrip_seg (t : List Char) (b : Char) (tl' : List Char)
    (hrev : t.reverse = b :: tl') (hb : pyIsSpace b = false) :
    ∀ u v, ∃ v', rstripWs (u ++ t ++ v) = u ++ t ++ v' := by
  intro u v
  rcases lstrip_seg b tl' hb v.reverse u.reverse with ⟨u', hu'⟩
  refine ⟨u'.reverse, ?_⟩
  unfold rstripWs
  have hrw : (u ++ t ++ v).reverse = v.reverse ++ (b :: tl') ++ u.reverse := by
    rw [← hrev]; simp [List.reverse_append, List.append_assoc]
  rw [hrw]
  have : (v.reverse ++ (b :: tl') ++ u.reverse).dropWhile pyIsSpace =
      u' ++ (b :: tl') ++ u.reverse := hu'
  rw [this, ← hrev]
  simp [List.reverse_append, List.append_assoc]

theorem strip_seg (t : List Char) (hne : t ≠ [])
    (hhead : pyIsSpace (t.headD 'x') = false)
    (hlast : pyIsSpace (t.reverse.headD 'x') = false)
    (s : List Char) (h : ∃ u v, s = u ++ t ++ v) :
    ∃ u v, pyStrip s = u ++ t ++ v := by
  obtain ⟨u, v, rfl⟩ := h
  cases t with
  | nil => exact absurd rfl hne
  | cons a tl =>
    have ha : pyIsSpace a = false := by simpa using hhead
    rcases hrev : (a :: tl).reverse with _ | ⟨b, tl'⟩
    · exact absurd hrev (by simp)
    · have hb : pyIsSpace b = false := by rw [hrev] at hlast; simpa using hlast
      unfold pyStrip
      rcases lstrip_seg a tl ha u v with ⟨u1, h1⟩
      rw [show lstripWs (u ++ (a :: tl) ++ v) = u1 ++ (a :: tl) ++ v from h1]
      rcases rstrip_seg (a :: tl) b tl' hrev hb u1 v with ⟨v', h2⟩
      exact ⟨u1, v', h2⟩

theorem allow_tokChk : allowTokens.all tokChk = true := by decide

/-- Any question containing an allow-listed token as a substring is let
through by `guard_unrelated`, whatever else it contains: the two
allow-list checks run before any blocked pattern is consulted. -/
theorem guard_allow (t q : List Char) (ht : t ∈ allowTokens) (hseg : segB t q = true) :
    guard_unrelated q = false := by
  have hchk := List.all_eq_true.mp allow_tokChk t ht
  simp only [tokChk, Bool.and_eq_true, Bool.not_eq_true', decide_eq_true_eq] at hchk
  obtain ⟨⟨⟨hne', hhead⟩, hlast⟩, hlow⟩ := hchk
  have hne : t ≠ [] := by
    intro hcon; rw [hcon] at hne'; cases hne'
  rcases (segB_iff t q).mp hseg with ⟨u, v, rfl⟩
  have h2 : ∃ u' v', pyLower (u ++ t ++ v) = u' ++ t ++ v' := by
    refine ⟨pyLower u, pyLower v, ?_⟩
    simp only [pyLower, List.map_append, hlow]
  have h3 : ∃ u' v', pyStrip (pyLower (u ++ t ++ v)) = u' ++ t ++ v' :=
    strip_seg t hne hhead hlast _ h2
  have hseg' : segB t (pyStrip (pyLower (u ++ t ++ v))) = true := (segB_iff t _).mpr h3
  rcases List.mem_append.mp ht with hg | hm
  · have hany : greetingsList.any (fun g => segB g (pyStrip (pyLower (u ++ t ++ v)))) = true :=
      List.any_eq_true.mpr ⟨t, hg, hseg'⟩
    simp only [guard_unrelated]
    rw [if_pos hany]
  · by_cases hany : greetingsList.any (fun g => segB g (pyStrip (pyLower (u ++ t ++ v)))) = true
    · simp only [guard_unrelated]
      rw [if_pos hany]
    · have hmany : metaList.any (fun g => segB g (pyStrip (pyLower (u ++ t ++ v)))) = true :=
        List.any_eq_true.mpr ⟨t, hm, hseg'⟩
      simp only [guard_unrelated]
      rw [if_neg hany, if_pos hmany]

/-- Claim C5: the allow-list takes precedence — any question containing an
allow-listed token is classified on-topic (`false`), even if it also
matches a blocked pattern. -/
theorem claim_C5 (q : List Char) (h : ∃ t ∈ allowTokens, segB t q = true) :
    guard_unrelated q = false := by
  obtain ⟨t, ht, hseg⟩ := h
  exact guard_allow t q ht hseg

/-- Claim C5 witness: the question `"hi, what's the weather"` (blocked
pattern `weather`, allow-listed token `hi`) is allowed through. -/
theorem claim_C5_witness :
    guard_unrelated ("hi, what".data ++ [Char.ofNat 39] ++ "s the weather".data) = false :=
  claim_C5 ("hi, what".data ++ [Char.ofNat 39] ++ "s the weather".data)
    ⟨"hi".data, by decide, by decide⟩

/-- Claim C10: allow-list tokens are tested as raw substrings, not whole
words — any question containing `"hi"` anywhere (also inside a word) is
classified on-topic, regardless of blocked patterns. -/
theorem claim_C10 (q : List Char) (h : segB "hi".data q = true) :
    guard_unrelated q = false :=
  guard_allow "hi".data q (by decide) h

/-- Claim C10 witness: `"what is this weather"` contains `"hi"` only
inside the word `"this"`, and matches the blocked `weather` pattern, yet
is allowed through. -/
theorem claim_C10_witness : guard_unrelated "what is this weather".data = false :=
  claim_C10 "what is this weather".data (by decide)

/-! ## Citation lemmas -/

theorem dedupFirst_nil : dedupFirst [] = [] := by
  rw [dedupFirst]

theorem dedupFirst_cons (c : List Char) (l : List (List Char)) :
    dedupFirst (c :: l) = c :: dedupFirst (l.filter (fun d => d ≠ c)) := by
  rw [dedupFirst]

/-- The seen-set loop of `join_citations`, compared with filtering the
already-seen tags away and then deduplicating by first occurrence. -/
theorem joinLoop_eq (ms : List MetaMap) : ∀ uniq seen,
    joinLoop ms uniq seen =
      uniq ++ dedupFirst ((ms.map format_citation).filter (fun c => (c ∉ seen : Bool))) := by
  induction ms with
  | nil => intro uniq seen; simp [joinLoop, dedupFirst_nil]
  | cons m ms ih =>
    intro uniq seen
    simp only [joinLoop, List.map_cons, List.filter_cons]
    by_cases hmem : format_citation m ∈ seen
    · rw [if_pos hmem, if_neg (by simp [hmem]), ih]
    · rw [if_neg hmem, if_pos (by simp [hmem]), ih]
      rw [dedupFirst_cons, List.filter_filter]
      have hpt : (ms.map format_citation).filter
            (fun c => (c ∉ format_citation m :: seen : Bool)) =
          (ms.map format_citation).filter
            (fun a => (a ≠ format_citation m : Bool) && (a ∉ seen : Bool)) := by
        apply List.filter_congr
        intro a _
        by_cases h1 : a = format_citation m <;> by_cases h2 : a ∈ seen <;>
          simp [h1, h2]
      rw [hpt]
      simp [List.append_assoc]

/-- `join_citations` is exactly space-joined first-occurrence dedup of the
formatted tags. -/
theorem join_citations_eq (ms : List MetaMap) :
    join_citations ms = spaceJoin (dedupFirst (ms.map format_citation)) := by
  unfold join_citations
  rw [joinLoop_eq ms [] []]
  have : (ms.map format_citation).filter (fun c => (c ∉ ([] : List (List Char)) : Bool)) =
      ms.map format_citation := by
    rw [List.filter_congr (fun a _ => by simp : ∀ a ∈ ms.map format_citation,
      (decide (a ∉ ([] : List (List Char)))) = true), List.filter_true]
  rw [this]
  simp

theorem dedupFirst_sub : ∀ (n : Nat) (l : List (List Char)), l.length ≤ n →
    ∀ x ∈ dedupFirst l, x ∈ l := by
  intro n
  induction n with
  | zero =>
    intro l hl x hx
    rcases List.eq_nil_of_length_eq_zero (Nat.le_zero.mp hl) with rfl
    rw [dedupFirst_nil] at hx
    cases hx
  | succ n ih =>
    intro l hl x hx
    cases l with
    | nil => rw [dedupFirst_nil] at hx; cases hx
    | cons c l =>
      rw [dedupFirst_cons] at hx
      rcases List.mem_cons.mp hx with rfl | hx'
      · exact List.mem_cons_self _ _
      · have hlen : (l.filter (fun d => d ≠ c)).length ≤ n :=
          le_trans (List.length_filter_le _ _) (by simpa using hl)
        have := ih _ hlen x hx'
        exact List.mem_cons_of_mem _ (List.mem_of_mem_filter this)

theorem dedupFirst_nodup : ∀ (n : Nat) (l : List (List Char)), l.length ≤ n →
    (dedupFirst l).Nodup := by
  intro n
  induction n with
  | zero =>
    intro l hl
    rcases List.eq_nil_of_length_eq_zero (Nat.le_zero.mp hl) with rfl
    rw [dedupFirst_nil]; exact List.nodup_nil
  | succ n ih =>
    intro l hl
    cases l with
    | nil => rw [dedupFirst_nil]; exact List.nodup_nil
    | cons c l =>
      rw [dedupFirst_cons]
      have hlen : (l.filter (fun d => d ≠ c)).length ≤ n :=
        le_trans (List.length_filter_le _ _) (by simpa using hl)
      refine List.nodup_cons.mpr ⟨?_, ih _ hlen⟩
      intro hmem
      have hin := dedupFirst_sub n _ hlen c hmem
      have := List.of_mem_filter hin
      simp at this

/-- Claim C6: `format_citation` renders exactly the two documented tag
shapes, and `join_citations` is the space-join of the formatted tags
deduplicated by exact string equality with first-occurrence order, so
repeated identical metadata contributes its tag exactly once. -/
theorem claim_C6 :
    (∀ (m : MetaMap) (p : Nat), m.page = some p →
      format_citation m = "[".data ++ m.source.getD "unknown".data ++ " p.".data
        ++ natStr p ++ " ".data ++ m.chunk_id.getD "chunk_?".data ++ "]".data) ∧
    (∀ m : MetaMap, m.page = none →
      format_citation m = "[".data ++ m.source.getD "unknown".data ++ " ".data
        ++ m.chunk_id.getD "chunk_?".data ++ "]".data) ∧
    (∀ ms : List MetaMap,
      join_citations ms = spaceJoin (dedupFirst (ms.map format_citation))) ∧
    (∀ l : List (List Char), (dedupFirst l).Nodup) := by
  refine ⟨?_, ?_, join_citations_eq, fun l => dedupFirst_nodup l.length l (le_refl _)⟩
  · intro m p hp
    simp only [format_citation, hp]
  · intro m hp
    simp only [format_citation, hp]

/-- Claim C6 witness: the page-bearing tag shape at a concrete metadata
map. -/
theorem claim_C6_witness :
    format_citation ⟨some "a.pdf".data, some 3, some "chunk_7".data, none⟩ =
      "[".data ++ (some "a.pdf".data).getD "unknown".data ++ " p.".data ++ natStr 3
        ++ " ".data ++ (some "chunk_7".data).getD "chunk_?".data ++ "]".data :=
  claim_C6.1 ⟨some "a.pdf".data, some 3, some "chunk_7".data, none⟩ 3 rfl

/-! ## Ingestion lemmas -/

theorem natStrAux_eq_digits : ∀ (fuel n : Nat), n ≤ fuel →
    natStrAux fuel n = ((Nat.digits 10 n).map Nat.digitChar).reverse := by
  intro fuel
  induction fuel with
  | zero =>
    intro n hn
    rcases Nat.le_zero.mp hn with rfl
    simp [natStrAux]
  | succ fuel ih =>
    intro n hn
    by_cases h0 : n = 0
    · subst h0; simp [natStrAux]
    · have hdiv : n / 10 ≤ fuel := by
        have := Nat.div_lt_self (Nat.pos_of_ne_zero h0) (by norm_num : 1 < 10)
        omega
      rw [show natStrAux (fuel + 1) n =
          natStrAux fuel (n / 10) ++ [Nat.digitChar (n % 10)] by
            simp [natStrAux, h0]]
      rw [ih _ hdiv]
      rw [Nat.digits_def' (by norm_num : 1 < 10) (Nat.pos_of_ne_zero h0)]
      simp

theorem natStr_eq (n : Nat) :
    natStr n = if n = 0 then ['0'] else ((Nat.digits 10 n).map Nat.digitChar).reverse := by
  unfold natStr
  by_cases h0 : n = 0
  · rw [if_pos h0, if_pos h0]
  · rw [if_neg h0, if_neg h0, natStrAux_eq_digits n n (le_refl _)]

theorem digitChar_inj_lt : ∀ a < 10, ∀ b < 10, Nat.digitChar a = Nat.digitChar b → a = b := by
  decide

theorem mapDigitChar_inj : ∀ (l1 l2 : List Nat), (∀ x ∈ l1, x < 10) → (∀ x ∈ l2, x < 10) →
    l1.map Nat.digitChar = l2.map Nat.digitChar → l1 = l2 := by
  intro l1
  induction l1 with
  | nil =>
    intro l2 _ _ h
    cases l2 with
    | nil => rfl
    | cons b l2 => simp at h
  | cons a l1 ih =>
    intro l2 h1 h2 h
    cases l2 with
    | nil => simp at h
    | cons b l2 =>
      simp only [List.map_cons, List.cons.injEq] at h
      have hab := digitChar_inj_lt a (h1 a (List.mem_cons_self _ _))
        b (h2 b (List.mem_cons_self _ _)) h.1
      subst hab
      rw [ih l2 (fun x hx => h1 x (List.mem_cons_of_mem _ hx))
        (fun x hx => h2 x (List.mem_cons_of_mem _ hx)) h.2]

theorem digits_bound (n : Nat) : ∀ x ∈ Nat.digits 10 n, x < 10 :=
  fun _ hx => Nat.digits_lt_base (by norm_num) hx

theorem natStr_inj {m n : Nat} (h : natStr m = natStr n) : m = n := by
  rw [natStr_eq, natStr_eq] at h
  by_cases hm : m = 0 <;> by_cases hn : n = 0
  · rw [hm, hn]
  · exfalso
    rw [if_pos hm, if_neg hn] at h
    have h' := congrArg List.reverse h
    simp only [List.reverse_reverse] at h'
    have hd : ([0] : List Nat) = Nat.digits 10 n := by
      apply mapDigitChar_inj [0] _ (by decide) (digits_bound n)
      rw [← h']; rfl
    have := Nat.ofDigits_digits 10 n
    rw [← hd] at this
    simp [Nat.ofDigits] at this
    exact hn this.symm
  · exfalso
    rw [if_neg hm, if_pos hn] at h
    have h' := congrArg List.reverse h
    simp only [List.reverse_reverse] at h'
    have hd : ([0] : List Nat) = Nat.digits 10 m := by
      apply mapDigitChar_inj [0] _ (by decide) (digits_bound m)
      rw [h']; rfl
    have := Nat.ofDigits_digits 10 m
    rw [← hd] at this
    simp [Nat.ofDigits] at this
    exact hm this.symm
  · rw [if_neg hm, if_neg hn] at h
    have h' := congrArg List.reverse h
    simp only [List.reverse_reverse] at h'
    exact Nat.digits_inj_iff.mp (mapDigitChar_inj _ _ (digits_bound m) (digits_bound n) h')

theorem chunk_id_inj {m n : Nat}
    (h : "chunk_".data ++ natStr m = "chunk_".data ++ natStr n) : m = n :=
  natStr_inj (List.append_cancel_left h)

theorem perRec_ids (base : MetaMap) : ∀ (cs : List (List Char)) (cid : Nat),
    chunkIds (perRec base cs cid) =
      (List.range cs.length).map (fun i => some ("chunk_".data ++ natStr (cid + i))) := by
  intro cs
  induction cs with
  | nil => intro cid; rfl
  | cons ch chs ih =>
    intro cid
    simp only [perRec, chunkIds, List.map_cons, List.length_cons,
      List.range_succ_eq_map, updatedMeta, List.map_map, Nat.add_zero]
    refine congrArg (List.cons _) ?_
    have hrec := ih (cid + 1)
    simp only [chunkIds] at hrec
    rw [hrec]
    apply List.map_congr_left
    intro a _
    simp only [Function.comp_apply, Nat.succ_eq_add_one]
    have harith : cid + 1 + a = cid + (a + 1) := by omega
    rw [harith]

/-- The `chunk_id` values attached by one `chunk_records` call starting at
counter `cid` are exactly `chunk_<cid>, chunk_<cid+1>, ...` in order. -/
theorem chunkRecLoop_ids : ∀ (rs : List Record) (cid : Nat),
    chunkIds (chunkRecLoop rs cid) =
      (List.range (totChunks rs)).map (fun i => some ("chunk_".data ++ natStr (cid + i))) := by
  intro rs
  induction rs with
  | nil => intro cid; rfl
  | cons r rs ih =>
    intro cid
    simp only [chunkRecLoop, chunkIds, List.map_append]
    have h1 := perRec_ids r.metadata (char_chunk_textD r.text) cid
    simp only [chunkIds] at h1
    have h2 := ih (cid + (char_chunk_textD r.text).length)
    simp only [chunkIds] at h2
    rw [h1, h2]
    have htot : totChunks (r :: rs) = (char_chunk_textD r.text).length + totChunks rs := by
      simp [totChunks]
    rw [htot, List.range_add, List.map_append, List.map_map]
    refine congrArg (List.append _) ?_
    apply List.map_congr_left
    intro a _
    simp only [Function.comp_apply]
    have harith : cid + ((char_chunk_textD r.text).length + a) =
        cid + (char_chunk_textD r.text).length + a := by omega
    rw [harith]

/-- Claim C1 (amended): within a single `chunk_records` call the chunk id
counter is global across all of that call's records (it is not reset per
record/page), so the `chunk_id` values of one file's chunks are pairwise
distinct. -/
theorem claim_C1_amended (rs : List Record) : (chunkIds (chunk_records rs)).Nodup := by
  unfold chunk_records
  rw [chunkRecLoop_ids]
  refine List.Nodup.map ?_ (List.nodup_range _)
  intro a b hab
  have h := chunk_id_inj (Option.some.inj hab)
  omega

/-- Claim C1 (counterexample): `ingest` calls `chunk_records` once per
file, and each call restarts the counter at 1, so a two-file batch
produces the duplicate ids `chunk_1`, `chunk_1`. -/
theorem claim_C1_counterexample :
    chunkIds (ingest_chunks
        [[⟨"hello".data, ⟨none, none, none, none⟩⟩],
         [⟨"world".data, ⟨none, none, none, none⟩⟩]]) =
      [some "chunk_1".data, some "chunk_1".data] ∧
    decide (chunkIds (ingest_chunks
        [[⟨"hello".data, ⟨none, none, none, none⟩⟩],
         [⟨"world".data, ⟨none, none, none, none⟩⟩]])).Nodup = false := by
  refine ⟨by decide, by decide⟩

/-! ## Summary-pipeline grounding (claim C2) -/

/-- Claim C2: whenever the concatenated context or the citation string of
the summary stage is empty (after stripping — in particular when it is
empty, and in particular for zero retrieved documents), the prompt inputs
are forced to empty context, empty citations and the generic instruction,
and the rendered human prompt is the fixed context-free string containing
no citation tag. -/
theorem claim_C2 :
    (∀ docs : List DocRec,
      pyStrip (summaryStage docs).context = [] ∨ pyStrip (summaryStage docs).citations = [] →
      summaryPipeline docs = ⟨[], [], some "Summarize the documents.".data⟩) ∧
    summaryPipeline [] = ⟨[], [], some "Summarize the documents.".data⟩ ∧
    renderSummaryHuman (summaryPipeline []) = "Context:\n\n\nCitations: ".data := by
  refine ⟨?_, by decide, by decide⟩
  intro docs h
  unfold summaryPipeline grounded_or_idk
  rw [if_pos h]

/-- Claim C2 witness: the zero-documents case. -/
theorem claim_C2_witness :
    summaryPipeline [] = ⟨[], [], some "Summarize the documents.".data⟩ :=
  claim_C2.1 [] (Or.inl (by decide))

/-! ## Answer-path refusal (claim C7) -/

/-- Whenever `ensure_chains` returns normally, the QA handle is set: the
builders never return `None`, so a `None` handle after a successful
`ensure_chains()` is impossible. -/
theorem ensure_chains_qa {α E : Type} (bq bs : Except E α) (st : AppChains α)
    (st' : AppChains α) (h : ensure_chains bq bs st = .ok st') :
    st'.qa.isSome = true := by
  rcases st with ⟨qa, sum⟩
  cases qa <;> cases sum <;> cases bq <;> cases bs <;>
    simp only [ensure_chains] at h <;> cases h <;> rfl

/-- The refusal branch of `stream_answer` is dead code: its outcome is
never `noIndexRefusal`, for any question, state and builder behaviour. -/
theorem stream_answer_never_refuses {α E : Type} (bq bs : Except E α)
    (st : AppChains α) (q : List Char) :
    (stream_answer bq bs st q).1 ≠ Outcome.noIndexRefusal := by
  simp only [stream_answer]
  repeat' split
  all_goals try (intro hcon; cases hcon)
  all_goals
    rename_i st' hok x hnone
    have hqa := ensure_chains_qa _ _ _ _ hok
    rw [hnone] at hqa
    cases hqa

/-- Claim C7: the "no documents indexed" refusal branch of `stream_answer`
is unreachable — for every question, state and builder behaviour the
outcome is never the refusal; in particular a document question asked
before any ingestion, with both builders succeeding, goes straight to the
model over the empty index. -/
theorem claim_C7 :
    (∀ (α E : Type) (bq bs : Except E α) (st : AppChains α) (q : List Char),
      ((stream_answer bq bs st q).1 == Outcome.noIndexRefusal) = false) ∧
    (@stream_answer Unit Unit (Except.ok ()) (Except.ok ()) ⟨none, none⟩
      "what are the termination conditions".data).1 = Outcome.modelAnswer := by
  constructor
  · intro α E bq bs st q
    exact beq_eq_false_iff_ne.mpr (stream_answer_never_refuses bq bs st q)
  · decide
